import Mathlib

/-!
Shallow embedding of the interrupt simulator (`kernel/irq/irq_sim.c`).

The pending bitmap is modelled as a `Finset ℕ` of set bit positions
(`set_bit` = insert, `clear_bit` = erase).  `bitmap_empty(p, nbits)`
inspects only the first `nbits` bits, and `find_next_bit(p, size, offset)`
returns the lowest set bit in `[offset, size)`, or `size` when there is
none — exactly the C semantics.

Per-line state (`struct irq_sim_irq_ctx`) is an `enabled` flag plus the
trigger type stored by `irqd_set_trigger_type`; the simulator keeps a list
of line contexts indexed by hardware offset, the pending bitmap, and the
irq_work scheduling flag.
-/

namespace IrqSim

def IRQ_TYPE_NONE : ℕ := 0
def IRQ_TYPE_EDGE_RISING : ℕ := 1
def IRQ_TYPE_EDGE_FALLING : ℕ := 2
def IRQ_TYPE_EDGE_BOTH : ℕ := 3

/-- Bitwise complement of `IRQ_TYPE_EDGE_BOTH` as a 32-bit unsigned value:
`~3 = 0xFFFFFFFC = 4294967292`. -/
def NOT32_IRQ_TYPE_EDGE_BOTH : ℕ := 4294967292

/-- `IRQD_TRIGGER_MASK = 0xf`: `irqd_set_trigger_type` keeps only these bits. -/
def IRQD_TRIGGER_MASK : ℕ := 15

def ENOMEM : Int := 12
def EINVAL : Int := 22

/-- `bitmap_empty(p, nbits)`: no bit below `nbits` is set. -/
def bitmap_empty (p : Finset ℕ) (nbits : ℕ) : Bool :=
  decide (p ∩ Finset.range nbits = ∅)

/-- Scanning loop of `find_next_bit`, structurally recursive on the number
of remaining candidate positions (`fuel` is kept equal to
`size - offset` by the wrapper, so running out of fuel coincides with
reaching `size`). -/
def findNextBitAux (p : Finset ℕ) (size : ℕ) : ℕ → ℕ → ℕ
  | 0, _ => size
  | fuel + 1, offset =>
    if offset < size then
      if offset ∈ p then offset else findNextBitAux p size fuel (offset + 1)
    else size

/-- `find_next_bit(p, size, offset)`: lowest set bit in `[offset, size)`,
or `size` when there is none (also when `offset ≥ size`). -/
def find_next_bit (p : Finset ℕ) (size : ℕ) (offset : ℕ) : ℕ :=
  findNextBitAux p size (size - offset) offset

theorem findNextBitAux_le (p : Finset ℕ) (size : ℕ) (fuel : ℕ) :
    ∀ offset, findNextBitAux p size fuel offset ≤ size := by
  induction fuel with
  | zero =>
    intro offset
    exact Nat.le_refl size
  | succ fuel ih =>
    intro offset
    by_cases h1 : offset < size
    · by_cases h2 : offset ∈ p
      · rw [findNextBitAux, if_pos h1, if_pos h2]
        omega
      · rw [findNextBitAux, if_pos h1, if_neg h2]
        exact ih (offset + 1)
    · rw [findNextBitAux, if_neg h1]

theorem findNextBitAux_ge (p : Finset ℕ) (size : ℕ) (fuel : ℕ) :
    ∀ offset, offset ≤ size → offset ≤ findNextBitAux p size fuel offset := by
  induction fuel with
  | zero =>
    intro offset h
    exact h
  | succ fuel ih =>
    intro offset h
    by_cases h1 : offset < size
    · by_cases h2 : offset ∈ p
      · rw [findNextBitAux, if_pos h1, if_pos h2]
      · rw [findNextBitAux, if_pos h1, if_neg h2]
        have := ih (offset + 1) (by omega)
        omega
    · rw [findNextBitAux, if_neg h1]
      exact h

theorem findNextBitAux_mem (p : Finset ℕ) (size : ℕ) (fuel : ℕ) :
    ∀ offset, findNextBitAux p size fuel offset < size →
      findNextBitAux p size fuel offset ∈ p := by
  induction fuel with
  | zero =>
    intro offset
    rw [findNextBitAux]
    omega
  | succ fuel ih =>
    intro offset
    by_cases h1 : offset < size
    · by_cases h2 : offset ∈ p
      · rw [findNextBitAux, if_pos h1, if_pos h2]
        intro _
        exact h2
      · rw [findNextBitAux, if_pos h1, if_neg h2]
        exact ih (offset + 1)
    · rw [findNextBitAux, if_neg h1]
      omega

theorem findNextBitAux_min (p : Finset ℕ) (size : ℕ) (fuel : ℕ) (x : ℕ)
    (hx : x ∈ p) (hxs : x < size) :
    ∀ offset, size - offset ≤ fuel → offset ≤ x →
      findNextBitAux p size fuel offset ≤ x := by
  induction fuel with
  | zero =>
    intro offset hfuel hox
    omega
  | succ fuel ih =>
    intro offset hfuel hox
    have h1 : offset < size := by omega
    by_cases h2 : offset ∈ p
    · rw [findNextBitAux, if_pos h1, if_pos h2]
      exact hox
    · rw [findNextBitAux, if_pos h1, if_neg h2]
      rcases Nat.eq_or_lt_of_le hox with h | h
      · subst h
        exact absurd hx h2
      · exact ih (offset + 1) (by omega) h

theorem find_next_bit_le (p : Finset ℕ) (size offset : ℕ) :
    find_next_bit p size offset ≤ size :=
  findNextBitAux_le p size (size - offset) offset

theorem find_next_bit_ge (p : Finset ℕ) (size offset : ℕ) (h : offset ≤ size) :
    offset ≤ find_next_bit p size offset :=
  findNextBitAux_ge p size (size - offset) offset h

theorem find_next_bit_mem (p : Finset ℕ) (size offset : ℕ) :
    find_next_bit p size offset < size → find_next_bit p size offset ∈ p :=
  findNextBitAux_mem p size (size - offset) offset

theorem find_next_bit_min (p : Finset ℕ) (size offset : ℕ) (x : ℕ)
    (hx : x ∈ p) (hox : offset ≤ x) (hxs : x < size) :
    find_next_bit p size offset ≤ x :=
  findNextBitAux_min p size (size - offset) x hx hxs offset (Nat.le_refl _) hox

/-- `struct irq_sim_irq_ctx` together with the trigger type that
`irqd_set_trigger_type` records in the line's irq_data. -/
structure IrqCtx where
  enabled : Bool
  trigger : ℕ
  deriving DecidableEq

/-- The simulator: `struct irq_sim` with its embedded `irq_sim_work_ctx`.
`lines` is the per-offset chip data created by `irq_sim_domain_map`
(`kzalloc` ⇒ `enabled = false`, `trigger = 0`); `pending` is the bitmap;
`work_queued` is the irq_work's pending flag. -/
structure SimState where
  irq_count : ℕ
  lines : List IrqCtx
  pending : Finset ℕ
  work_queued : Bool
  deriving DecidableEq

/-- State of a freshly created simulator with `n` mapped lines. -/
def initialState (n : ℕ) : SimState :=
  ⟨n, List.replicate n ⟨false, 0⟩, ∅, false⟩

/-- `irq_sim_fire(virq)`: look up the chip data for the line; if the line
is enabled, `set_bit(hwirq, pending)` and `irq_work_queue`.  An unmapped
offset has no chip data (the C code would dereference NULL; we model the
failed lookup as leaving the state unchanged). -/
def irq_sim_fire (st : SimState) (offset : ℕ) : SimState :=
  match st.lines[offset]? with
  | none => st
  | some ctx =>
    if ctx.enabled then
      { st with pending := insert offset st.pending, work_queued := true }
    else st

/-- `irq_sim_irqmask`: clear the line's enabled flag. -/
def irq_sim_irqmask (st : SimState) (offset : ℕ) : SimState :=
  match st.lines[offset]? with
  | none => st
  | some ctx => { st with lines := st.lines.set offset { ctx with enabled := false } }

/-- `irq_sim_irqunmask`: set the line's enabled flag. -/
def irq_sim_irqunmask (st : SimState) (offset : ℕ) : SimState :=
  match st.lines[offset]? with
  | none => st
  | some ctx => { st with lines := st.lines.set offset { ctx with enabled := true } }

/-- `irq_sim_set_type`: reject any `type` with a bit outside
`IRQ_TYPE_EDGE_BOTH` (`type & ~IRQ_TYPE_EDGE_BOTH`, 32-bit complement),
otherwise store it via `irqd_set_trigger_type` (which masks with
`IRQD_TRIGGER_MASK`).  Returns the new state and the C return value. -/
def irq_sim_set_type (st : SimState) (offset : ℕ) (ty : ℕ) : SimState × Int :=
  if ty &&& NOT32_IRQ_TYPE_EDGE_BOTH ≠ 0 then (st, -EINVAL)
  else
    match st.lines[offset]? with
    | none => (st, 0)
    | some ctx =>
      ({ st with lines := st.lines.set offset { ctx with trigger := ty &&& IRQD_TRIGGER_MASK } }, 0)

/-- One pass of the body of the `while` loop in `irq_sim_handle_irq`,
with the loop's local variable `offset` and the list of offsets passed to
`handle_simple_irq` so far made explicit.  When the bitmap (restricted to
`irq_count` bits) is empty the loop has exited and the state is fixed. -/
def drainLoopStep (s : SimState × ℕ × List ℕ) : SimState × ℕ × List ℕ :=
  let (st, offset, ds) := s
  if bitmap_empty st.pending st.irq_count then s
  else
    let o := find_next_bit st.pending st.irq_count offset
    ({ st with pending := st.pending.erase o }, o, ds ++ [o])

/-- `k` iterations of the drain loop body. -/
def drainLoopIter : ℕ → SimState × ℕ × List ℕ → SimState × ℕ × List ℕ
  | 0, s => s
  | k + 1, s => drainLoopIter k (drainLoopStep s)

/-- `irq_sim_handle_irq`, run to completion with explicit fuel: starting
from bitmap `p` and the loop variable `offset` (initially 0), repeatedly
find the next set bit from `offset`, clear it, and deliver it.  Returns
the final bitmap and the ordered list of delivered offsets. -/
def irq_sim_handle_irq (n : ℕ) : ℕ → Finset ℕ → ℕ → Finset ℕ × List ℕ
  | 0, p, _ => (p, [])
  | fuel + 1, p, offset =>
    if bitmap_empty p n then (p, [])
    else
      let o := find_next_bit p n offset
      let r := irq_sim_handle_irq n fuel (p.erase o) o
      (r.1, o :: r.2)

theorem bitmap_empty_true_iff (p : Finset ℕ) (n : ℕ) (hsub : p ⊆ Finset.range n) :
    bitmap_empty p n = true ↔ p = ∅ := by
  rw [bitmap_empty, decide_eq_true_iff, Finset.inter_eq_left.mpr hsub]

/-- Sorting a nonempty finset puts its minimum first, followed by the sort
of the rest. -/
theorem sort_cons_min (p : Finset ℕ) (hne : p.Nonempty) :
    p.sort (· ≤ ·) = p.min' hne :: (p.erase (p.min' hne)).sort (· ≤ ·) := by
  have hmem : p.min' hne ∈ p := p.min'_mem hne
  refine List.eq_of_perm_of_sorted ?_ (Finset.sort_sorted _ _) ?_
  · rw [← Multiset.coe_eq_coe, Finset.sort_eq, ← Multiset.cons_coe, Finset.sort_eq,
      Finset.erase_val, Multiset.cons_erase hmem]
  · rw [List.sorted_cons]
    refine ⟨fun b hb => ?_, Finset.sort_sorted _ _⟩
    rw [Finset.mem_sort] at hb
    exact p.min'_le b (Finset.mem_of_mem_erase hb)

/-- The drain loop of `irq_sim_handle_irq`, run sequentially (no racing
fires) with enough fuel on a bitmap whose set bits all lie in
`[offset, n)`, clears the bitmap and delivers exactly the pending offsets
in ascending order. -/
theorem drain_sorted (n : ℕ) (fuel : ℕ) (p : Finset ℕ) (offset : ℕ)
    (hsub : p ⊆ Finset.range n) (hoff : ∀ x ∈ p, offset ≤ x)
    (hfuel : p.card ≤ fuel) :
    irq_sim_handle_irq n fuel p offset = (∅, p.sort (· ≤ ·)) := by
  induction fuel generalizing p offset with
  | zero =>
    have hp : p = ∅ := Finset.card_eq_zero.mp (Nat.le_zero.mp hfuel)
    subst hp
    simp [irq_sim_handle_irq]
  | succ fuel ih =>
    rw [irq_sim_handle_irq]
    by_cases hemp : bitmap_empty p n
    · have hp : p = ∅ := (bitmap_empty_true_iff p n hsub).mp hemp
      subst hp
      simp [hemp]
    · have hne : p.Nonempty := by
        by_contra hc
        rw [Finset.not_nonempty_iff_eq_empty] at hc
        exact hemp ((bitmap_empty_true_iff p n hsub).mpr hc)
      have hmmem : p.min' hne ∈ p := p.min'_mem hne
      have hmlt : p.min' hne < n := Finset.mem_range.mp (hsub hmmem)
      have hfind : find_next_bit p n offset = p.min' hne := by
        have hle : find_next_bit p n offset ≤ p.min' hne :=
          find_next_bit_min p n offset _ hmmem (hoff _ hmmem) hmlt
        have hmem : find_next_bit p n offset ∈ p :=
          find_next_bit_mem p n offset (lt_of_le_of_lt hle hmlt)
        exact le_antisymm hle (p.min'_le _ hmem)
      rw [if_neg (by simpa using hemp)]
      simp only [hfind]
      rw [ih (p.erase (p.min' hne)) (p.min' hne)
        (Finset.Subset.trans (Finset.erase_subset _ _) hsub)
        (fun x hx => p.min'_le x (Finset.mem_of_mem_erase hx))
        (by rw [Finset.card_erase_of_mem hmmem]; omega)]
      rw [sort_cons_min p hne]

/-- The drain never adds bits to the bitmap: whatever is pending after any
number of loop iterations was already pending at the start. -/
theorem drain_pending_subset (n : ℕ) (fuel : ℕ) (p : Finset ℕ) (offset : ℕ) :
    (irq_sim_handle_irq n fuel p offset).1 ⊆ p := by
  induction fuel generalizing p offset with
  | zero => exact fun x hx => hx
  | succ fuel ih =>
    rw [irq_sim_handle_irq]
    by_cases hemp : bitmap_empty p n
    · rw [if_pos hemp]
    · rw [if_neg hemp]
      exact Finset.Subset.trans (ih _ _) (Finset.erase_subset _ _)

/-- The heap objects `irq_sim_new` / `devm_irq_sim_new` allocate. -/
inductive Alloc
  | simStruct
  | pendingBitmap
  | domain
  | devresRecord
  deriving DecidableEq

/-- Environment oracle: which allocation calls succeed. -/
structure AllocOracle where
  simAlloc : Bool
  bitmapAlloc : Bool
  domainAlloc : Bool
  devresAlloc : Bool
  deriving DecidableEq

/-- The `struct irq_sim` object as returned to the caller. -/
structure Sim where
  irq_count : ℕ
  pending : Finset ℕ
  deriving DecidableEq

/-- `irq_sim_new(num_irqs)`: `kmalloc` the sim, `bitmap_zalloc` the
pending bitmap (on failure `kfree(sim)`), `irq_domain_create_linear`
(on failure the function returns without freeing anything).  The second
component lists the heap objects still allocated when the call returns
and not owned by a successfully returned simulator-free path; on success
it is the storage owned by the returned object, on failure it is leaked
storage. -/
def irq_sim_new (o : AllocOracle) (num_irqs : ℕ) : Except Int Sim × List Alloc :=
  if o.simAlloc = false then
    (Except.error (-ENOMEM), [])
  else if o.bitmapAlloc = false then
    (Except.error (-ENOMEM), [])
  else if o.domainAlloc = false then
    (Except.error (-ENOMEM), [Alloc.simStruct, Alloc.pendingBitmap])
  else
    (Except.ok ⟨num_irqs, ∅⟩, [Alloc.simStruct, Alloc.pendingBitmap, Alloc.domain])

/-- Observable events of `irq_sim_free`, in program order. -/
inductive FreeEv
  | dispose (offset : ℕ)
  | domainRemove
  | workSync
  | bitmapFree
  | kfreeSim
  deriving DecidableEq

/-- `irq_sim_free(sim)`: for each offset below `irq_count`,
`irq_find_mapping` and, if a mapping exists, `irq_dispose_mapping`; then
`irq_domain_remove`, `irq_work_sync`, `bitmap_free`, `kfree` — in exactly
this order.  `mapping` tells which offsets currently have a linear-domain
mapping. -/
def irq_sim_free (irq_count : ℕ) (mapping : ℕ → Option ℕ) : List FreeEv :=
  ((List.range irq_count).filterMap fun i =>
    match mapping i with
    | some _ => some (FreeEv.dispose i)
    | none => none)
  ++ [FreeEv.domainRemove, FreeEv.workSync, FreeEv.bitmapFree, FreeEv.kfreeSim]

/-- `devm_irq_sim_new(dev, num_irqs)`: `devres_alloc` the bookkeeping
record (on failure return `-ENOMEM`), call `irq_sim_new`; on its failure
`devres_free` the record and return the error, on success `devres_add`
the record — whose release action `devm_irq_sim_release` calls
`irq_sim_free(this->sim)` — and return the simulator.  Result components:
the returned value, the live heap objects allocated by this call itself,
and the list of simulators a registered release action will free. -/
def devm_irq_sim_new (o : AllocOracle) (num_irqs : ℕ) :
    Except Int Sim × List Alloc × List Sim :=
  if o.devresAlloc = false then
    (Except.error (-ENOMEM), [], [])
  else
    match (irq_sim_new o num_irqs).1 with
    | Except.error e => (Except.error e, [], [])
    | Except.ok sim => (Except.ok sim, [Alloc.devresRecord], [sim])

/-- The operations a consumer can run against a live simulator. -/
inductive SimOp
  | fire (offset : ℕ)
  | drain (fuel : ℕ)
  | mask (offset : ℕ)
  | unmask (offset : ℕ)
  | setType (offset : ℕ) (ty : ℕ)

/-- Effect of one operation on the simulator state. -/
def applyOp (op : SimOp) (st : SimState) : SimState :=
  match op with
  | SimOp.fire o => irq_sim_fire st o
  | SimOp.drain fuel =>
    { st with pending := (irq_sim_handle_irq st.irq_count fuel st.pending 0).1,
              work_queued := false }
  | SimOp.mask o => irq_sim_irqmask st o
  | SimOp.unmask o => irq_sim_irqunmask st o
  | SimOp.setType o ty => (irq_sim_set_type st o ty).1

/-- Run a sequence of operations left to right. -/
def runOps (ops : List SimOp) (st : SimState) : SimState :=
  ops.foldl (fun s op => applyOp op s) st

theorem fire_enabled_eq (st : SimState) (L : ℕ) (ctx : IrqCtx)
    (hget : st.lines[L]? = some ctx) (hen : ctx.enabled = true) :
    irq_sim_fire st L =
      { st with pending := insert L st.pending, work_queued := true } := by
  simp [irq_sim_fire, hget, hen]

/-- Iterated `irq_sim_fire` of the same line. -/
def fireK (st : SimState) (L : ℕ) : ℕ → SimState
  | 0 => st
  | k + 1 => irq_sim_fire (fireK st L k) L

theorem fireK_eq (st : SimState) (L : ℕ) (ctx : IrqCtx) (k : ℕ)
    (hget : st.lines[L]? = some ctx) (hen : ctx.enabled = true)
    (hk : 1 ≤ k) :
    fireK st L k = { st with pending := insert L st.pending, work_queued := true } := by
  induction k with
  | zero => omega
  | succ k ih =>
    by_cases hk1 : 1 ≤ k
    · rw [fireK, ih hk1,
        fire_enabled_eq { st with pending := insert L st.pending, work_queued := true }
          L ctx hget hen,
        Finset.insert_idem]
    · have hk0 : k = 0 := by omega
      subst hk0
      rw [fireK, fireK]
      exact fire_enabled_eq st L ctx hget hen

theorem count_sort_eq_one (p : Finset ℕ) (L : ℕ) (h : L ∈ p) :
    (p.sort (· ≤ ·)).count L = 1 :=
  List.count_eq_one_of_mem (Finset.sort_nodup _ p) ((Finset.mem_sort _).mpr h)

/-- C2: within a single drain invocation, any two lines that are both
pending when the drain starts are delivered in ascending offset order:
the callback for the smaller offset runs at a strictly earlier position
of the delivery sequence. -/
theorem drain_delivers_ascending (n fuel : ℕ) (p : Finset ℕ) (L1 L2 : ℕ)
    (hsub : p ⊆ Finset.range n) (h1 : L1 ∈ p) (h2 : L2 ∈ p) (h12 : L1 < L2)
    (hfuel : p.card ≤ fuel) :
    ∃ i j : Fin (irq_sim_handle_irq n fuel p 0).2.length,
      i < j ∧ (irq_sim_handle_irq n fuel p 0).2.get i = L1 ∧
        (irq_sim_handle_irq n fuel p 0).2.get j = L2 := by
  have hlist : (irq_sim_handle_irq n fuel p 0).2 = p.sort (· ≤ ·) := by
    rw [drain_sorted n fuel p 0 hsub (fun x _ => Nat.zero_le x) hfuel]
  rw [hlist]
  have hm1 : L1 ∈ p.sort (· ≤ ·) := (Finset.mem_sort _).mpr h1
  have hm2 : L2 ∈ p.sort (· ≤ ·) := (Finset.mem_sort _).mpr h2
  obtain ⟨i, hi⟩ := List.mem_iff_get.mp hm1
  obtain ⟨j, hj⟩ := List.mem_iff_get.mp hm2
  refine ⟨i, j, ?_, hi, hj⟩
  rcases lt_trichotomy i j with h | h | h
  · exact h
  · subst h
    rw [hi] at hj
    omega
  · have := (Finset.sort_sorted_lt p).rel_get_of_lt h
    rw [hi, hj] at this
    omega

/-- C2 witness: in a 4-line simulator with lines 1 and 3 pending, one
drain delivers line 1 strictly before line 3. -/
theorem drain_delivers_ascending_witness :
    ∃ i j : Fin (irq_sim_handle_irq 4 2 ({1, 3} : Finset ℕ) 0).2.length,
      i < j ∧ (irq_sim_handle_irq 4 2 ({1, 3} : Finset ℕ) 0).2.get i = 1 ∧
        (irq_sim_handle_irq 4 2 ({1, 3} : Finset ℕ) 0).2.get j = 3 :=
  drain_delivers_ascending 4 2 {1, 3} 1 3 (by decide) (by decide) (by decide)
    (by decide) (by decide)

/-- C5: firing the same enabled line `k ≥ 1` times before any drain runs
sets its pending bit once (the latch is idempotent), and the next drain
delivers exactly one callback for it, not `k`. -/
theorem fire_coalesces (st : SimState) (L : ℕ) (ctx : IrqCtx) (k fuel : ℕ)
    (hget : st.lines[L]? = some ctx) (hen : ctx.enabled = true)
    (hsub : st.pending ⊆ Finset.range st.irq_count) (hL : L < st.irq_count)
    (hk : 1 ≤ k) (hfuel : st.irq_count ≤ fuel) :
    (fireK st L k).pending = insert L st.pending ∧
    ((irq_sim_handle_irq st.irq_count fuel (fireK st L k).pending 0).2).count L
      = 1 := by
  rw [fireK_eq st L ctx k hget hen hk]
  have hsub' : insert L st.pending ⊆ Finset.range st.irq_count := by
    intro x hx
    rcases Finset.mem_insert.mp hx with h | h
    · subst h
      exact Finset.mem_range.mpr hL
    · exact hsub h
  have hcard : (insert L st.pending).card ≤ fuel := by
    have := Finset.card_le_card hsub'
    rw [Finset.card_range] at this
    omega
  refine ⟨rfl, ?_⟩
  rw [drain_sorted st.irq_count fuel _ 0 hsub' (fun x _ => Nat.zero_le x) hcard]
  exact count_sort_eq_one _ L (Finset.mem_insert_self L st.pending)

/-- C5 witness: firing line 0 three times on a fresh 2-line simulator with
line 0 unmasked yields a single pending bit and exactly one delivery. -/
theorem fire_coalesces_witness :
    (fireK ⟨2, [⟨true, 0⟩, ⟨false, 0⟩], ∅, false⟩ 0 3).pending = insert 0 ∅ ∧
    ((irq_sim_handle_irq 2 2
        (fireK ⟨2, [⟨true, 0⟩, ⟨false, 0⟩], ∅, false⟩ 0 3).pending 0).2).count 0
      = 1 :=
  fire_coalesces ⟨2, [⟨true, 0⟩, ⟨false, 0⟩], ∅, false⟩ 0 ⟨true, 0⟩ 3 2
    (by decide) (by decide) (by decide) (by decide) (by decide) (by decide)

/-- C6: firing a line whose enabled flag is false is a silent no-op: the
whole simulator state is unchanged, so in particular the line's pending
bit is not set and the dispatcher is not scheduled, and the fire produces
no delivery. -/
theorem fire_disabled_silent (st : SimState) (L : ℕ) (ctx : IrqCtx)
    (hget : st.lines[L]? = some ctx) (hdis : ctx.enabled = false) :
    irq_sim_fire st L = st ∧
    (irq_sim_fire st L).pending = st.pending ∧
    (irq_sim_fire st L).work_queued = st.work_queued := by
  have h : irq_sim_fire st L = st := by
    simp [irq_sim_fire, hget, hdis]
  exact ⟨h, by rw [h], by rw [h]⟩

/-- C6 witness: firing masked line 1 of a 2-line simulator changes
nothing. -/
theorem fire_disabled_silent_witness :
    irq_sim_fire ⟨2, [⟨true, 0⟩, ⟨false, 0⟩], ∅, false⟩ 1
      = ⟨2, [⟨true, 0⟩, ⟨false, 0⟩], ∅, false⟩ ∧
    (irq_sim_fire ⟨2, [⟨true, 0⟩, ⟨false, 0⟩], ∅, false⟩ 1).pending = ∅ ∧
    (irq_sim_fire ⟨2, [⟨true, 0⟩, ⟨false, 0⟩], ∅, false⟩ 1).work_queued = false :=
  fire_disabled_silent ⟨2, [⟨true, 0⟩, ⟨false, 0⟩], ∅, false⟩ 1 ⟨false, 0⟩
    (by decide) (by decide)

/-- C7: a line whose pending bit is set and that is then masked is still
delivered exactly once by the drain: masking flips the enabled flag (first
conjunct) but the drain never consults it, so the latched bit survives
(second conjunct). -/
theorem masked_line_still_delivered (st : SimState) (L : ℕ) (ctx : IrqCtx)
    (fuel : ℕ) (hget : st.lines[L]? = some ctx) (hpend : L ∈ st.pending)
    (hsub : st.pending ⊆ Finset.range st.irq_count)
    (hfuel : st.irq_count ≤ fuel) :
    (irq_sim_irqmask st L).lines[L]? = some ⟨false, ctx.trigger⟩ ∧
    ((irq_sim_handle_irq (irq_sim_irqmask st L).irq_count fuel
        (irq_sim_irqmask st L).pending 0).2).count L = 1 := by
  obtain ⟨hlt, -⟩ := List.getElem?_eq_some.mp hget
  have hmask : irq_sim_irqmask st L
      = { st with lines := st.lines.set L ⟨false, ctx.trigger⟩ } := by
    simp [irq_sim_irqmask, hget]
  rw [hmask]
  constructor
  · exact List.getElem?_set_self hlt
  · have hcard : st.pending.card ≤ fuel := by
      have := Finset.card_le_card hsub
      rw [Finset.card_range] at this
      omega
    rw [drain_sorted st.irq_count fuel st.pending 0 hsub
      (fun x _ => Nat.zero_le x) hcard]
    exact count_sort_eq_one _ L hpend

/-- C7 witness: line 0 of a 2-line simulator is pending, gets masked, and
is still delivered exactly once. -/
theorem masked_line_still_delivered_witness :
    (irq_sim_irqmask ⟨2, [⟨true, 0⟩, ⟨true, 0⟩], {0}, true⟩ 0).lines[0]?
      = some ⟨false, 0⟩ ∧
    ((irq_sim_handle_irq
        (irq_sim_irqmask ⟨2, [⟨true, 0⟩, ⟨true, 0⟩], {0}, true⟩ 0).irq_count 2
        (irq_sim_irqmask ⟨2, [⟨true, 0⟩, ⟨true, 0⟩], {0}, true⟩ 0).pending
        0).2).count 0 = 1 :=
  masked_line_still_delivered ⟨2, [⟨true, 0⟩, ⟨true, 0⟩], {0}, true⟩ 0 ⟨true, 0⟩ 2
    (by decide) (by decide) (by decide) (by decide)

theorem fire_unmapped_eq (st : SimState) (L : ℕ) (hg : st.lines[L]? = none) :
    irq_sim_fire st L = st := by
  simp [irq_sim_fire, hg]

theorem fire_disabled_eq (st : SimState) (L : ℕ) (ctx : IrqCtx)
    (hget : st.lines[L]? = some ctx) (hdis : ctx.enabled = false) :
    irq_sim_fire st L = st := by
  simp [irq_sim_fire, hget, hdis]

theorem irqmask_unmapped_eq (st : SimState) (L : ℕ) (hg : st.lines[L]? = none) :
    irq_sim_irqmask st L = st := by
  simp [irq_sim_irqmask, hg]

theorem irqmask_eq (st : SimState) (L : ℕ) (ctx : IrqCtx)
    (hget : st.lines[L]? = some ctx) :
    irq_sim_irqmask st L
      = { st with lines := st.lines.set L ⟨false, ctx.trigger⟩ } := by
  simp [irq_sim_irqmask, hget]

theorem irqunmask_unmapped_eq (st : SimState) (L : ℕ)
    (hg : st.lines[L]? = none) : irq_sim_irqunmask st L = st := by
  simp [irq_sim_irqunmask, hg]

theorem irqunmask_eq (st : SimState) (L : ℕ) (ctx : IrqCtx)
    (hget : st.lines[L]? = some ctx) :
    irq_sim_irqunmask st L
      = { st with lines := st.lines.set L ⟨true, ctx.trigger⟩ } := by
  simp [irq_sim_irqunmask, hget]

theorem set_type_invalid_eq (st : SimState) (L : ℕ) (ty : ℕ)
    (hv : ty &&& NOT32_IRQ_TYPE_EDGE_BOTH ≠ 0) :
    irq_sim_set_type st L ty = (st, -EINVAL) := by
  rw [irq_sim_set_type, if_pos hv]

theorem set_type_unmapped_eq (st : SimState) (L : ℕ) (ty : ℕ)
    (hv : ty &&& NOT32_IRQ_TYPE_EDGE_BOTH = 0) (hg : st.lines[L]? = none) :
    irq_sim_set_type st L ty = (st, 0) := by
  simp [irq_sim_set_type, hv, hg]

theorem set_type_valid_eq (st : SimState) (L : ℕ) (ty : ℕ) (ctx : IrqCtx)
    (hv : ty &&& NOT32_IRQ_TYPE_EDGE_BOTH = 0) (hget : st.lines[L]? = some ctx) :
    irq_sim_set_type st L ty
      = ({ st with
            lines := st.lines.set L ⟨ctx.enabled, ty &&& IRQD_TRIGGER_MASK⟩ }, 0) := by
  simp [irq_sim_set_type, hv, hget]

/-- Well-formedness of a live simulator: the advertised line count matches
the line table and every pending offset is in range. -/
def SimInv (n : ℕ) (st : SimState) : Prop :=
  st.irq_count = n ∧ st.lines.length = n ∧ st.pending ⊆ Finset.range n

theorem applyOp_inv (n : ℕ) (op : SimOp) (st : SimState) (h : SimInv n st) :
    SimInv n (applyOp op st) := by
  obtain ⟨hc, hl, hp⟩ := h
  cases op with
  | fire o =>
    show SimInv n (irq_sim_fire st o)
    cases hg : st.lines[o]? with
    | none =>
      rw [fire_unmapped_eq st o hg]
      exact ⟨hc, hl, hp⟩
    | some ctx =>
      cases he : ctx.enabled with
      | false =>
        rw [fire_disabled_eq st o ctx hg he]
        exact ⟨hc, hl, hp⟩
      | true =>
        rw [fire_enabled_eq st o ctx hg he]
        refine ⟨hc, hl, fun x hx => ?_⟩
        rcases Finset.mem_insert.mp hx with hx | hx
        · subst hx
          obtain ⟨hlt, -⟩ := List.getElem?_eq_some.mp hg
          exact Finset.mem_range.mpr (by omega)
        · exact hp hx
  | drain fuel =>
    exact ⟨hc, hl, fun x hx =>
      hp (drain_pending_subset st.irq_count fuel st.pending 0 hx)⟩
  | mask o =>
    show SimInv n (irq_sim_irqmask st o)
    cases hg : st.lines[o]? with
    | none =>
      rw [irqmask_unmapped_eq st o hg]
      exact ⟨hc, hl, hp⟩
    | some ctx =>
      rw [irqmask_eq st o ctx hg]
      exact ⟨hc, by simpa using hl, hp⟩
  | unmask o =>
    show SimInv n (irq_sim_irqunmask st o)
    cases hg : st.lines[o]? with
    | none =>
      rw [irqunmask_unmapped_eq st o hg]
      exact ⟨hc, hl, hp⟩
    | some ctx =>
      rw [irqunmask_eq st o ctx hg]
      exact ⟨hc, by simpa using hl, hp⟩
  | setType o ty =>
    show SimInv n (irq_sim_set_type st o ty).1
    by_cases hv : ty &&& NOT32_IRQ_TYPE_EDGE_BOTH = 0
    · cases hg : st.lines[o]? with
      | none =>
        rw [set_type_unmapped_eq st o ty hv hg]
        exact ⟨hc, hl, hp⟩
      | some ctx =>
        rw [set_type_valid_eq st o ty ctx hv hg]
        exact ⟨hc, by simpa using hl, hp⟩
    · rw [set_type_invalid_eq st o ty hv]
      exact ⟨hc, hl, hp⟩

theorem runOps_inv (n : ℕ) (ops : List SimOp) :
    ∀ st, SimInv n st → SimInv n (runOps ops st) := by
  induction ops with
  | nil =>
    intro st h
    exact h
  | cons op ops ih =>
    intro st h
    exact ih (applyOp op st) (applyOp_inv n op st h)

/-- C9: in every state reachable from a freshly created simulator by any
sequence of fire, drain, mask, unmask and set-type operations, every
offset in the pending set is strictly below the (unchanged) line count. -/
theorem reachable_pending_lt_count (n : ℕ) (ops : List SimOp) :
    (runOps ops (initialState n)).irq_count = n ∧
    (runOps ops (initialState n)).pending
      ⊆ Finset.range (runOps ops (initialState n)).irq_count := by
  have hbase : SimInv n (initialState n) :=
    ⟨rfl, List.length_replicate n _, by simp [initialState]⟩
  obtain ⟨hc, -, hp⟩ := runOps_inv n ops (initialState n) hbase
  exact ⟨hc, by rw [hc]; exact hp⟩

/-- C3 (code bug): when the third allocation (`irq_domain_create_linear`)
fails, `irq_sim_new` returns `-ENOMEM` but leaks both the simulator
struct and the pending bitmap — the claimed full rollback does not
happen.  Moreover a zero line count is not rejected: with all allocations
succeeding, `irq_sim_new(0)` returns a simulator. -/
theorem create_domain_failure_leaks :
    (irq_sim_new ⟨true, true, false, true⟩ 4).1 = Except.error (-ENOMEM) ∧
    (irq_sim_new ⟨true, true, false, true⟩ 4).2
      = [Alloc.simStruct, Alloc.pendingBitmap] ∧
    (irq_sim_new ⟨true, true, true, true⟩ 0).1 = Except.ok ⟨0, ∅⟩ :=
  ⟨rfl, rfl, rfl⟩

theorem land_not32_eq_zero_of_lt_four (t : ℕ) (h : t < 4) :
    t &&& NOT32_IRQ_TYPE_EDGE_BOTH = 0 := by
  interval_cases t <;> decide

theorem land_not32_ne_zero (t : ℕ) (h4 : 4 ≤ t) (h32 : t < 2 ^ 32) :
    t &&& NOT32_IRQ_TYPE_EDGE_BOTH ≠ 0 := by
  have hpow : (2 : ℕ) ^ 2 = 4 := by norm_num
  have h2 : 2 ^ 2 ≤ t := by omega
  obtain ⟨i, hi2, hbit⟩ := Nat.ge_two_pow_implies_high_bit_true h2
  have hige : 2 ^ i ≤ t := Nat.testBit_implies_ge hbit
  have hi32 : i < 32 := by
    by_contra hc
    have : 2 ^ 32 ≤ 2 ^ i := Nat.pow_le_pow_right (by omega) (by omega)
    omega
  intro hzero
  have hmaskbit : Nat.testBit NOT32_IRQ_TYPE_EDGE_BOTH i = true := by
    have hsh : NOT32_IRQ_TYPE_EDGE_BOTH = (2 ^ 30 - 1) <<< 2 := by
      rw [Nat.shiftLeft_eq]
      decide
    rw [hsh, Nat.testBit_shiftLeft, Nat.testBit_two_pow_sub_one,
      Bool.and_eq_true, decide_eq_true_iff, decide_eq_true_iff]
    omega
  have hand : Nat.testBit (t &&& NOT32_IRQ_TYPE_EDGE_BOTH) i = true := by
    rw [Nat.testBit_and, hbit, hmaskbit]
    rfl
  rw [hzero, Nat.zero_testBit] at hand
  exact Bool.false_ne_true hand

/-- C4 counterexample: trigger type 0 (`IRQ_TYPE_NONE`) lies outside
{rising, falling, both}, yet `irq_sim_set_type` accepts it — it returns 0
and overwrites the previously stored type 2 with 0 — instead of returning
`-EINVAL` and leaving the type unchanged as the claim requires. -/
theorem set_type_accepts_type_none :
    irq_sim_set_type ⟨1, [⟨false, 2⟩], ∅, false⟩ 0 IRQ_TYPE_NONE
      = (⟨1, [⟨false, 0⟩], ∅, false⟩, 0) ∧
    IRQ_TYPE_NONE ∉
      [IRQ_TYPE_EDGE_RISING, IRQ_TYPE_EDGE_FALLING, IRQ_TYPE_EDGE_BOTH] := by
  constructor
  · decide
  · decide

/-- C4 amended: `irq_sim_set_type` rejects exactly the 32-bit type values
with a bit outside `IRQ_TYPE_EDGE_BOTH`, i.e. every `type ≥ 4`; rejection
returns `-EINVAL` and leaves the whole state (hence the stored trigger
type) unchanged.  Every `type` in {0 = none, 1 = rising, 2 = falling,
3 = both} is accepted: the call returns 0 and stores the type. -/
theorem set_type_validates (st : SimState) (L : ℕ) (ctx : IrqCtx) (ty : ℕ)
    (hget : st.lines[L]? = some ctx) (h32 : ty < 2 ^ 32) :
    (4 ≤ ty → irq_sim_set_type st L ty = (st, -EINVAL)) ∧
    (ty < 4 → irq_sim_set_type st L ty
      = ({ st with lines := st.lines.set L ⟨ctx.enabled, ty⟩ }, 0)) := by
  constructor
  · intro h4
    exact set_type_invalid_eq st L ty (land_not32_ne_zero ty h4 h32)
  · intro hlt
    have h15 : ty &&& IRQD_TRIGGER_MASK = ty := by
      interval_cases ty <;> decide
    have h := set_type_valid_eq st L ty ctx
      (land_not32_eq_zero_of_lt_four ty hlt) hget
    rw [h15] at h
    exact h

/-- C4 witness: on a one-line simulator whose line has stored type 2,
type 5 is rejected with `-EINVAL` and the state is untouched. -/
theorem set_type_validates_witness :
    (4 ≤ 5 → irq_sim_set_type ⟨1, [⟨false, 2⟩], ∅, false⟩ 0 5
      = (⟨1, [⟨false, 2⟩], ∅, false⟩, -EINVAL)) ∧
    (5 < 4 → irq_sim_set_type ⟨1, [⟨false, 2⟩], ∅, false⟩ 0 5
      = (⟨1, [(⟨false, 2⟩ : IrqCtx)].set 0 ⟨false, 5⟩, ∅, false⟩, 0)) :=
  set_type_validates ⟨1, [⟨false, 2⟩], ∅, false⟩ 0 ⟨false, 2⟩ 5
    (by decide) (by norm_num)

theorem mem_free_dispose_part (n : ℕ) (mapping : ℕ → Option ℕ) (e : FreeEv)
    (he : e ∈ (List.range n).filterMap fun i =>
        match mapping i with
        | some _ => some (FreeEv.dispose i)
        | none => none) :
    ∃ i, e = FreeEv.dispose i := by
  obtain ⟨i, -, hfi⟩ := List.mem_filterMap.mp he
  cases hm : mapping i with
  | none =>
    rw [hm] at hfi
    exact absurd hfi (by simp)
  | some v =>
    rw [hm] at hfi
    exact ⟨i, by simpa using hfi.symm⟩

/-- C8 counterexample: on a one-line simulator whose line is mapped,
`irq_sim_free` disposes the line's mapping before the blocking
`irq_work_sync`, so the claimed order — wait for the in-flight drain
first, deregister the lines only afterwards — does not hold. -/
theorem free_sync_not_before_dispose :
    FreeEv.dispose 0 ∈ irq_sim_free 1 (fun _ => some 5) ∧
    ¬ (irq_sim_free 1 (fun _ => some 5)).indexOf FreeEv.workSync
        < (irq_sim_free 1 (fun _ => some 5)).indexOf (FreeEv.dispose 0) := by
  constructor
  · decide
  · decide

/-- C8 amended: `irq_sim_free` first deregisters every mapped line (and
removes the domain), then performs the blocking `irq_work_sync` join, and
only after the join frees the pending bitmap and the simulator struct —
so the frees still happen strictly after any in-flight drain has been
waited for, but the per-line deregistration happens before the join, not
after it. -/
theorem free_order (n : ℕ) (mapping : ℕ → Option ℕ) (o : ℕ)
    (hd : FreeEv.dispose o ∈ irq_sim_free n mapping) :
    (irq_sim_free n mapping).indexOf (FreeEv.dispose o)
        < (irq_sim_free n mapping).indexOf FreeEv.workSync ∧
    (irq_sim_free n mapping).indexOf FreeEv.workSync
        < (irq_sim_free n mapping).indexOf FreeEv.bitmapFree ∧
    (irq_sim_free n mapping).indexOf FreeEv.bitmapFree
        < (irq_sim_free n mapping).indexOf FreeEv.kfreeSim := by
  rw [irq_sim_free] at hd ⊢
  set D := (List.range n).filterMap fun i =>
    match mapping i with
    | some _ => some (FreeEv.dispose i)
    | none => none with hD
  have hmemD : FreeEv.dispose o ∈ D := by
    rcases List.mem_append.mp hd with h | h
    · exact h
    · exact absurd h (by simp)
  have hnotWS : FreeEv.workSync ∉ D := by
    intro h
    obtain ⟨i, hi⟩ := mem_free_dispose_part n mapping _ h
    exact FreeEv.noConfusion hi
  have hnotBF : FreeEv.bitmapFree ∉ D := by
    intro h
    obtain ⟨i, hi⟩ := mem_free_dispose_part n mapping _ h
    exact FreeEv.noConfusion hi
  have hnotKF : FreeEv.kfreeSim ∉ D := by
    intro h
    obtain ⟨i, hi⟩ := mem_free_dispose_part n mapping _ h
    exact FreeEv.noConfusion hi
  rw [List.indexOf_append_of_mem hmemD, List.indexOf_append_of_not_mem hnotWS,
    List.indexOf_append_of_not_mem hnotBF, List.indexOf_append_of_not_mem hnotKF]
  have h1 : List.indexOf FreeEv.workSync
      [FreeEv.domainRemove, FreeEv.workSync, FreeEv.bitmapFree, FreeEv.kfreeSim]
      = 1 := by decide
  have h2 : List.indexOf FreeEv.bitmapFree
      [FreeEv.domainRemove, FreeEv.workSync, FreeEv.bitmapFree, FreeEv.kfreeSim]
      = 2 := by decide
  have h3 : List.indexOf FreeEv.kfreeSim
      [FreeEv.domainRemove, FreeEv.workSync, FreeEv.bitmapFree, FreeEv.kfreeSim]
      = 3 := by decide
  rw [h1, h2, h3]
  have hlt : List.indexOf (FreeEv.dispose o) D < D.length :=
    List.indexOf_lt_length.mpr hmemD
  omega

/-- C8 witness: on a one-line simulator with a mapped line, the dispose
event precedes the join, which precedes both frees. -/
theorem free_order_witness :
    (irq_sim_free 1 (fun _ => some 5)).indexOf (FreeEv.dispose 0)
        < (irq_sim_free 1 (fun _ => some 5)).indexOf FreeEv.workSync ∧
    (irq_sim_free 1 (fun _ => some 5)).indexOf FreeEv.workSync
        < (irq_sim_free 1 (fun _ => some 5)).indexOf FreeEv.bitmapFree ∧
    (irq_sim_free 1 (fun _ => some 5)).indexOf FreeEv.bitmapFree
        < (irq_sim_free 1 (fun _ => some 5)).indexOf FreeEv.kfreeSim :=
  free_order 1 (fun _ => some 5) 0 (by decide)

/-- C10 counterexample: when `devres_alloc` itself fails,
`devm_irq_sim_new` returns `-ENOMEM` without ever calling `irq_sim_new`,
while `irq_sim_new` under the same conditions would succeed — the two
calls do not return the same value for that `num_irqs`. -/
theorem devm_devres_alloc_failure_differs :
    (devm_irq_sim_new ⟨true, true, true, false⟩ 4).1 = Except.error (-ENOMEM) ∧
    (irq_sim_new ⟨true, true, true, false⟩ 4).1 = Except.ok ⟨4, ∅⟩ ∧
    (devm_irq_sim_new ⟨true, true, true, false⟩ 4).1
      ≠ (irq_sim_new ⟨true, true, true, false⟩ 4).1 :=
  ⟨rfl, rfl, fun h => Except.noConfusion h⟩

/-- C10 amended: provided its own bookkeeping `devres_alloc` succeeds,
`devm_irq_sim_new` returns exactly what `irq_sim_new` returns; on
`irq_sim_new` failure it frees the bookkeeping record (leaving no live
allocation of its own) and registers no teardown action, and on success
it registers exactly one teardown action — `devm_irq_sim_release`, which
runs `irq_sim_free` — on that same simulator. -/
theorem devm_matches_new (o : AllocOracle) (num_irqs : ℕ)
    (hdr : o.devresAlloc = true) :
    (devm_irq_sim_new o num_irqs).1 = (irq_sim_new o num_irqs).1 ∧
    ((irq_sim_new o num_irqs).1 = Except.error (-ENOMEM) →
      (devm_irq_sim_new o num_irqs).2 = ([], [])) ∧
    (∀ sim, (irq_sim_new o num_irqs).1 = Except.ok sim →
      (devm_irq_sim_new o num_irqs).2 = ([Alloc.devresRecord], [sim])) := by
  obtain ⟨sa, ba, da, dra⟩ := o
  simp only at hdr
  subst hdr
  cases sa <;> cases ba <;> cases da <;>
    simp [devm_irq_sim_new, irq_sim_new]

/-- C10 witness: with every allocation succeeding, the scoped constructor
returns the same simulator as `irq_sim_new` and registers exactly one
teardown action on it. -/
theorem devm_matches_new_witness :
    (devm_irq_sim_new ⟨true, true, true, true⟩ 2).1
      = (irq_sim_new ⟨true, true, true, true⟩ 2).1 ∧
    ((irq_sim_new ⟨true, true, true, true⟩ 2).1 = Except.error (-ENOMEM) →
      (devm_irq_sim_new ⟨true, true, true, true⟩ 2).2 = ([], [])) ∧
    (∀ sim, (irq_sim_new ⟨true, true, true, true⟩ 2).1 = Except.ok sim →
      (devm_irq_sim_new ⟨true, true, true, true⟩ 2).2
        = ([Alloc.devresRecord], [sim])) :=
  devm_matches_new ⟨true, true, true, true⟩ 2 rfl

/-- A 4-line simulator with every line unmasked, line 3 fired (pending bit
3 set) and the dispatcher scheduled: the state in which the racy drain
scenario starts. -/
def raceStart : SimState :=
  ⟨4, [⟨true, 0⟩, ⟨true, 0⟩, ⟨true, 0⟩, ⟨true, 0⟩], {3}, true⟩

/-- Drain loop state after its first iteration from `raceStart`: line 3
has been delivered and the loop's local `offset` variable is left at 3. -/
def afterFirstIter : SimState × ℕ × List ℕ :=
  drainLoopStep (raceStart, 0, [])

/-- `irq_sim_fire(line 1)` landing mid-drain, between the first iteration
and the loop's next emptiness check: line 1 is enabled, so its pending
bit is set (and the work is re-queued). -/
def afterMidDrainFire : SimState :=
  irq_sim_fire afterFirstIter.1 1

theorem race_loop_invariant (k : ℕ) :
    ∀ st off ds, st.pending = {1} → st.irq_count = 4 → 3 ≤ off → 1 ∉ ds →
      (drainLoopIter k (st, off, ds)).1.pending = {1} ∧
      (drainLoopIter k (st, off, ds)).1.irq_count = 4 ∧
      3 ≤ (drainLoopIter k (st, off, ds)).2.1 ∧
      1 ∉ (drainLoopIter k (st, off, ds)).2.2 := by
  induction k with
  | zero =>
    intro st off ds h1 h2 h3 h4
    exact ⟨h1, h2, h3, h4⟩
  | succ k ih =>
    intro st off ds h1 h2 h3 h4
    obtain ⟨o, ho⟩ : ∃ o, find_next_bit st.pending st.irq_count off = o :=
      ⟨_, rfl⟩
    have hne : bitmap_empty st.pending st.irq_count = false := by
      rw [h1, h2]
      decide
    have ho4 : 4 ≤ o := by
      rw [← ho, h1, h2]
      by_cases hoff : off ≤ 4
      · have hge := find_next_bit_ge ({1} : Finset ℕ) 4 off hoff
        by_contra hc
        have hmem := find_next_bit_mem ({1} : Finset ℕ) 4 off (by omega)
        rw [Finset.mem_singleton] at hmem
        omega
      · rw [find_next_bit, Nat.sub_eq_zero_of_le (by omega), findNextBitAux]
    have hstep : drainLoopStep (st, off, ds)
        = ({ st with pending := st.pending.erase o }, o, ds ++ [o]) := by
      rw [drainLoopStep, if_neg (by rw [hne]; exact Bool.false_ne_true), ho]
    rw [drainLoopIter, hstep]
    refine ih _ _ _ ?_ h2 (by omega) ?_
    · show st.pending.erase o = {1}
      rw [h1]
      exact Finset.erase_eq_of_not_mem (by rw [Finset.mem_singleton]; omega)
    · intro hmem
      rcases List.mem_append.mp hmem with h | h
      · exact h4 h
      · rw [List.mem_singleton] at h
        omega

/-- C1 (code bug): a fire that lands mid-drain at an offset below the
drain's current search position is lost by the current drain invocation
even though its pending bit is set before the loop's next emptiness
check.  Concretely: with 4 lines and line 3 pending, the first loop
iteration delivers line 3 and leaves the loop's `offset` at 3; an enabled
fire of line 1 then sets pending bit 1; from there, no number of further
loop iterations ever delivers line 1 (the loop keeps finding
`find_next_bit = 4 = irq_count`, clearing the out-of-range bit 4), and
bit 1 stays pending forever — the loop also never terminates, so the
re-queued follow-up drain never runs either. -/
theorem fire_mid_drain_never_delivered :
    afterFirstIter = ({ raceStart with pending := ∅ }, 3, [3]) ∧
    afterMidDrainFire.pending = {1} ∧
    ∀ k : ℕ,
      1 ∉ (drainLoopIter k (afterMidDrainFire, 3, [3])).2.2 ∧
      1 ∈ (drainLoopIter k (afterMidDrainFire, 3, [3])).1.pending := by
  refine ⟨by decide, by decide, fun k => ?_⟩
  have h := race_loop_invariant k afterMidDrainFire 3 [3]
    (by decide) (by decide) (by omega) (by decide)
  refine ⟨h.2.2.2, ?_⟩
  rw [h.1]
  decide

end IrqSim
